import Mathlib

/-!
Verification development for the clustered federated learning core in
`fl_devices.py` (one-shot FL with clustering).

Modelling conventions:
* A torch tensor is modelled as its flattened list of entries over `ℚ`
  (exact arithmetic standing in for floating point values); elementwise
  operations act positionwise.
* A parameter dictionary (`OrderedDict` of named tensors) is an
  association list `List (String × Tensor)` in insertion order, which is
  also the iteration order Python dictionaries guarantee.
* Fallible Python code (KeyError on a missing dictionary key, errors of
  `torch.stack` on an empty list, AttributeError on a missing object
  attribute, IndexError on `clients[0]` of an empty list) is modelled with
  `Option`: `none` is the raised exception.
* `torch.norm` is a real square root, so the cosine-similarity matrix of
  `pairwise_angles` lives in `ℝ`; everything else is computable over `ℚ`.
-/

set_option autoImplicit false

namespace FLDevices

/-- A tensor, flattened to its list of rational entries. -/
abbrev Tensor := List ℚ

/-- A named-parameter dictionary: keys in insertion order with their tensors. -/
abbrev ParamMap := List (String × Tensor)

/-- Dictionary lookup `m[name]`: first entry with the given key, `none` is a
Python `KeyError`. -/
def lookupT : ParamMap → String → Option Tensor
  | [], _ => none
  | (k, v) :: rest, name => if k = name then some v else lookupT rest name

/-- Elementwise tensor addition (`a + b` on same-shape tensors). -/
def addT (a b : Tensor) : Tensor := List.zipWith (fun x y => x + y) a b

/-- Elementwise tensor subtraction (`a - b` on same-shape tensors). -/
def subT (a b : Tensor) : Tensor := List.zipWith (fun x y => x - y) a b

/-- Sum of a list of same-shape tensors, as produced by iterated `+`. -/
def sumT : List Tensor → Tensor
  | [] => []
  | [t] => t
  | t :: rest => addT t (sumT rest)

/-- `torch.mean(torch.stack ts, dim=0)`: the elementwise mean of a list of
same-shape tensors; `torch.stack` raises on an empty list. -/
def meanT : List Tensor → Option Tensor
  | [] => none
  | t :: rest => some ((sumT (t :: rest)).map (fun q => q / ((t :: rest).length : ℚ)))

/-- Source `copy(target, source)`: for every key of `target`, overwrite its
tensor with a clone of `source`'s tensor at that key (KeyError if `source`
lacks a key of `target`). -/
def copyMap : ParamMap → ParamMap → Option ParamMap
  | [], _ => some []
  | (name, _) :: rest, source =>
    match lookupT source name, copyMap rest source with
    | some v, some r => some ((name, v) :: r)
    | _, _ => none

/-- Source `get_dW(target, minuend, subtrahend)`: for every key of `target`,
add `minuend[name] - subtrahend[name]` into the existing tensor. -/
def get_dW : ParamMap → ParamMap → ParamMap → Option ParamMap
  | [], _, _ => some []
  | (name, t) :: rest, minuend, subtrahend =>
    match lookupT minuend name, lookupT subtrahend name, get_dW rest minuend subtrahend with
    | some mv, some sv, some r => some ((name, addT t (subT mv sv)) :: r)
    | _, _, _ => none

/-- The list `[source[name] for source in sources]`, first KeyError aborts. -/
def mapLookup (name : String) : List ParamMap → Option (List Tensor)
  | [] => some []
  | s :: rest =>
    match lookupT s name, mapLookup name rest with
    | some v, some vs => some (v :: vs)
    | _, _ => none

/-- Inner loop of `reduce_add_average` for one target: for every key of
`target`, add the elementwise mean of the sources' tensors at that key into
the existing tensor. -/
def addMeanInto : ParamMap → List ParamMap → Option ParamMap
  | [], _ => some []
  | (name, t) :: rest, sources =>
    match mapLookup name sources with
    | none => none
    | some vs =>
      match meanT vs, addMeanInto rest sources with
      | some m, some r => some ((name, addT t m) :: r)
      | _, _ => none

/-- Source `reduce_add_average(targets, sources)`: add the per-key elementwise
mean of `sources` into every map of `targets`. -/
def reduce_add_average : List ParamMap → List ParamMap → Option (List ParamMap)
  | [], _ => some []
  | t :: ts, sources =>
    match addMeanInto t sources, reduce_add_average ts sources with
    | some r, some rs => some (r :: rs)
    | _, _ => none

/-- Source `flatten(source)`: concatenation of all tensors in key order. -/
def flattenP (m : ParamMap) : Tensor := (m.map (fun p => p.2)).flatten

/-- `torch.sum(s1 * s2)`: the dot product of two flattened tensors. -/
def dotQ (a b : Tensor) : ℚ := (List.zipWith (fun x y => x * y) a b).sum

/-- Value of map `m` at key `name`, position `x` (0 outside the map). Spec-side
accessor used to state pointwise properties. -/
def entryAt (m : ParamMap) (name : String) (x : ℕ) : ℚ :=
  ((lookupT m name).getD []).getD x 0

/-- Spec-side: the per-key elementwise mean of `sources` at key `name`,
position `x` — the quantity the spec calls the mean delta. -/
def specMeanEntry (sources : List ParamMap) (name : String) (x : ℕ) : ℚ :=
  (sources.map (fun s => entryAt s name x)).sum / (sources.length : ℚ)

/-- Spec-side: `target` with the per-key elementwise mean of `sources` added
into every entry — the result `averageInto`-style operations must produce. -/
def specAddMean (sources : List ParamMap) (target : ParamMap) : ParamMap :=
  target.map (fun p =>
    (p.1, (List.range p.2.length).map (fun x => p.2.getD x 0 + specMeanEntry sources p.1 x)))

/-- Spec-side: `target` with `minuend[key] - subtrahend[key]` added into every
entry — the result `accumulateDifference` must produce. -/
def specAddDiff (minuend subtrahend target : ParamMap) : ParamMap :=
  target.map (fun p =>
    (p.1, (List.range p.2.length).map (fun x =>
      p.2.getD x 0 + (entryAt minuend p.1 x - entryAt subtrahend p.1 x))))

/-- `true` iff `s` has key `name` with a tensor of length `L`. -/
def hasKeyLen (s : ParamMap) (name : String) (L : ℕ) : Bool :=
  match lookupT s name with
  | some v => v.length == L
  | none => false

/-- Compatibility of a target with a list of sources: every key of `target`
is present in every source with a tensor of the same shape (the ParameterMap
invariant of the spec, restricted to what the operations actually touch). -/
def compatB (target : ParamMap) (sources : List ParamMap) : Bool :=
  target.all (fun p => sources.all (fun s => hasKeyLen s p.1 p.2.length))

/-- `zeros_like`: a map with the keys and shapes of `m` and all-zero tensors,
as built for `dW` and `W_old` in `Client.__init__`. -/
def zerosLike (m : ParamMap) : ParamMap :=
  m.map (fun p => (p.1, p.2.map (fun _ => (0 : ℚ))))

/-- A `Client` object. Python attributes `W`, `dW`, `W_old` hold references to
dictionary objects whose tensors are mutated in place, so the state is a small
heap of `ParamMap` objects addressed by the reference fields; `W_original` is
an attribute that does not exist until `synchronize_with_server` first assigns
it (`none` models the unset attribute, raising AttributeError on access). -/
structure PyClient where
  heap : List ParamMap
  W_ref : ℕ
  dW_ref : ℕ
  W_old_ref : ℕ
  W_original_ref : Option ℕ
  lr : ℚ

/-- Read the dictionary object an attribute refers to. -/
def PyClient.attr (c : PyClient) (r : ℕ) : ParamMap := c.heap.getD r []

/-- `Client.__init__`: `W` holds the model's named parameters (initial values
`W0`), `dW` and `W_old` are fresh `zeros_like` dictionaries, and no
`W_original` attribute exists yet; `lr0` is the optimizer's learning rate. -/
def PyClient.init (W0 : ParamMap) (lr0 : ℚ) : PyClient :=
  { heap := [W0, zerosLike W0, zerosLike W0]
    W_ref := 0
    dW_ref := 1
    W_old_ref := 2
    W_original_ref := none
    lr := lr0 }

/-- `Client.synchronize_with_server`: `copy(target=self.W, source=server.W)`
mutates the dictionary `W` refers to in place, then `self.W_original = self.W`
stores a reference to that same dictionary object (not a clone). -/
def PyClient.synchronize_with_server (c : PyClient) (serverW : ParamMap) :
    Option PyClient :=
  match copyMap (c.attr c.W_ref) serverW with
  | none => none
  | some w =>
    some { c with heap := c.heap.set c.W_ref w, W_original_ref := some c.W_ref }

/-- `Client.compute_weight_update`: clone `W` into `W_old`, decay the learning
rate by `0.99`, run local training, then accumulate `W - W_old` into `dW`.
The TrainingOracle (`train_op`, excluded from this core by the spec) mutates
the model's live parameters — the dictionary `W` refers to — in place; its
effect is the oracle-supplied per-key values `trained`. -/
def PyClient.compute_weight_update (c : PyClient) (trained : ParamMap) :
    Option PyClient :=
  match copyMap (c.attr c.W_old_ref) (c.attr c.W_ref) with
  | none => none
  | some wOld =>
    let c1 : PyClient :=
      { c with heap := c.heap.set c.W_old_ref wOld, lr := c.lr * (99 / 100) }
    match copyMap (c1.attr c1.W_ref) trained with
    | none => none
    | some wNew =>
      let c2 : PyClient := { c1 with heap := c1.heap.set c1.W_ref wNew }
      match get_dW (c2.attr c2.dW_ref) (c2.attr c2.W_ref) (c2.attr c2.W_old_ref) with
      | none => none
      | some d => some { c2 with heap := c2.heap.set c2.dW_ref d }

/-- `Client.reset`: `copy(target=self.W, source=self.W_original)`; accessing a
never-assigned `W_original` raises AttributeError (`none`). -/
def PyClient.reset (c : PyClient) : Option PyClient :=
  match c.W_original_ref with
  | none => none
  | some r =>
    match copyMap (c.attr c.W_ref) (c.attr r) with
    | none => none
    | some w => some { c with heap := c.heap.set c.W_ref w }

/-- Server-side view of a client: the `W` and `dW` dictionaries the `Server`
aggregation methods read and write (these are distinct objects per client,
never aliased to each other, so a value-level record is faithful). -/
structure FClient where
  W : ParamMap
  dW : ParamMap
deriving DecidableEq

/-- `Server.aggregate_clusterwise(client_clusters)`: for each cluster, run
`reduce_add_average(targets=[client.W ...], sources=[client.dW ...])`, writing
each member's updated `W` back into that member. -/
def aggregate_clusterwise : List (List FClient) → Option (List (List FClient))
  | [] => some []
  | cluster :: rest =>
    match reduce_add_average (cluster.map (fun c => c.W)) (cluster.map (fun c => c.dW)),
        aggregate_clusterwise rest with
    | some ws, some r =>
      some ((List.zipWith (fun c w => { W := w, dW := c.dW : FClient }) cluster ws) :: r)
    | _, _ => none

/-- First loop of `Server.get_average_dw`: for every key of the first client's
`dW`, the elementwise sum of all clients' `dW` tensors at that key. -/
def sumLoop : ParamMap → List FClient → Option ParamMap
  | [], _ => some []
  | (name, _) :: restKeys, clients =>
    match mapLookup name (clients.map (fun c => c.dW)), sumLoop restKeys clients with
    | some vs, some r => some ((name, sumT vs) :: r)
    | _, _ => none

/-- `Server.get_average_dw(clients)`: build the per-key sum of the clients'
`dW` over the keys of `clients[0].dW`, then divide every entry by the number
of clients (`clients[0]` raises IndexError on an empty list). -/
def get_average_dw (clients : List FClient) : Option ParamMap :=
  match clients with
  | [] => none
  | c0 :: rest =>
    match sumLoop c0.dW (c0 :: rest) with
    | none => none
    | some sums =>
      some (sums.map (fun p =>
        (p.1, p.2.map (fun q => q / (((c0 :: rest).length : ℚ))))))

/-- Spec-side: the standalone per-key arithmetic mean of the clients' `dW`
that `averageDelta` must return. -/
def specAvgDw (clients : List FClient) : ParamMap :=
  (clients.headD { W := [], dW := [] }).dW.map (fun p =>
    (p.1, (List.range p.2.length).map (fun x =>
      specMeanEntry (clients.map (fun c => c.dW)) p.1 x)))

/-- Parameter names of `def reduce_add_average(targets, sources)`. -/
def reduce_add_average_param_names : List String := ["targets", "sources"]

/-- Keyword-argument names used at the call site inside
`Server.aggregate_weight_updates`:
`reduce_add_average(target=self.W, sources=[client.dW for client in clients])`. -/
def aggregate_weight_updates_call_kwargs : List String := ["target", "sources"]

/-- Python call binding: a call with keyword arguments succeeds only if every
keyword names a declared parameter; otherwise the call raises
`TypeError: ... got an unexpected keyword argument`. -/
def pyCallBindsKwargs (declared kwargs : List String) : Bool :=
  kwargs.all (fun k => declared.contains k)

/-- Source `pairwise_angles(sources)`: entry `(i, j)` of the similarity matrix,
`torch.sum(s1 * s2) / (torch.norm(s1) * torch.norm(s2) + 1e-12)` with
`s1 = flatten(sources[i])`, `s2 = flatten(sources[j])`; `torch.norm` is the
square root of the sum of squares, so entries live in `ℝ`. -/
noncomputable def pairwise_angles (sources : List ParamMap) (i j : ℕ) : ℝ :=
  let s1 := flattenP (sources.getD i [])
  let s2 := flattenP (sources.getD j [])
  ((dotQ s1 s2 : ℚ) : ℝ) /
    (Real.sqrt ((dotQ s1 s1 : ℚ) : ℝ) * Real.sqrt ((dotQ s2 s2 : ℚ) : ℝ)
      + 1 / 1000000000000)

/-- All index pairs `(i, j)` with `i < j < n`: the candidate cluster merges. -/
def allPairs (n : ℕ) : List (ℕ × ℕ) :=
  ((List.range n).map (fun j => (List.range j).map (fun i => (i, j)))).flatten

/-- Maximum of a list of rationals (0 on the empty list, which the clustering
below never hits: clusters are nonempty). -/
def maxQ : List ℚ → ℚ
  | [] => 0
  | x :: xs => xs.foldl max x

/-- Complete-linkage distance between two clusters: the maximum pairwise
distance between any member of `ca` and any member of `cb`. -/
def linkDist (D : ℕ → ℕ → ℚ) (ca cb : List ℕ) : ℚ :=
  maxQ ((ca.map (fun a => cb.map (fun b => D a b))).flatten)

/-- First pair attaining the minimum of `f` (deterministic tie-break: the
earliest minimizing pair in list order wins). -/
def pickMin (f : ℕ × ℕ → ℚ) : List (ℕ × ℕ) → Option (ℕ × ℕ)
  | [] => none
  | p :: ps => some (ps.foldl (fun best q => if f q < f best then q else best) p)

/-- Modelled from the spec: one agglomerative merge step of
`sklearn.cluster.AgglomerativeClustering(affinity="precomputed",
linkage="complete")`, whose implementation is library code outside this
repository — merge the two clusters at minimal complete-linkage distance. -/
def stepMerge (D : ℕ → ℕ → ℚ) (cs : List (List ℕ)) : List (List ℕ) :=
  match pickMin (fun p => linkDist D (cs.getD p.1 []) (cs.getD p.2 []))
      (allPairs cs.length) with
  | none => cs
  | some (a, b) => (cs.getD a [] ++ cs.getD b []) :: (cs.eraseIdx b).eraseIdx a

/-- Modelled from the spec: hierarchical agglomerative clustering — starting
from singletons, merge until exactly two clusters remain (`n_clusters=2`, the
sklearn default used by the source). Fuel `n` bounds the `n - 2` merges. -/
def agglomerate (D : ℕ → ℕ → ℚ) : ℕ → List (List ℕ) → List (List ℕ)
  | 0, cs => cs
  | fuel + 1, cs => if cs.length ≤ 2 then cs else agglomerate D fuel (stepMerge D cs)

/-- `Server.cluster_clients(S)`: fit complete-linkage agglomerative clustering
on the precomputed distance matrix `-S` over `n` clients, and return the two
label groups (`np.argwhere(labels == 0)`, `np.argwhere(labels == 1)`). -/
def cluster_clients (S : ℕ → ℕ → ℚ) (n : ℕ) : List ℕ × List ℕ :=
  let cs := agglomerate (fun i j => -(S i j)) n ((List.range n).map (fun i => [i]))
  (cs.getD 0 [], cs.getD 1 [])

/-- Default pair for positional access into a `ParamMap`. -/
def pmD : String × Tensor := ("", [])

/-- Key used by the concrete one-parameter scenarios below. -/
def pkey : String := "w"

/-- A fresh client whose single parameter starts at 0, learning rate 1. -/
def c1Client : PyClient := PyClient.init [(pkey, [0])] 1

/-- Global server parameters at synchronization time. -/
def c1ServerW : ParamMap := [(pkey, [5])]

/-- Parameter values after local training mutates the model in place. -/
def c1Trained : ParamMap := [(pkey, [7])]

/-- Concrete accumulation target for the `get_dW` scenario. -/
def c4t : ParamMap := [(pkey, [100])]

/-- Minuend of the first `get_dW` call. -/
def c4m1 : ParamMap := [(pkey, [3])]

/-- Subtrahend of the first `get_dW` call. -/
def c4s1 : ParamMap := [(pkey, [1])]

/-- Minuend of the second `get_dW` call. -/
def c4m2 : ParamMap := [(pkey, [10])]

/-- Subtrahend of the second `get_dW` call. -/
def c4s2 : ParamMap := [(pkey, [4])]

/-- First member of the concrete cohort: `W = {w: [0]}`, `dW = {w: [2]}`. -/
def c3a : FClient := { W := [(pkey, [0])], dW := [(pkey, [2])] }

/-- Second member of the concrete cohort: `W = {w: [10]}`, `dW = {w: [4]}`. -/
def c3b : FClient := { W := [(pkey, [10])], dW := [(pkey, [4])] }

/-- A single two-member cohort for the clusterwise-aggregation scenario. -/
def c3cohorts : List (List FClient) := [[c3a, c3b]]

/-- Client with delta `{w: [1]}` for the average-delta scenario. -/
def c9a : FClient := { W := [], dW := [(pkey, [1])] }

/-- Client with the opposite delta `{w: [-1]}`. -/
def c9b : FClient := { W := [], dW := [(pkey, [-1])] }

/-- Two clients whose deltas cancel, so the average delta is all-zero. -/
def c9clients : List FClient := [c9a, c9b]

/-- A concrete similarity matrix (all zeros) over two clients. -/
def c8S : ℕ → ℕ → ℚ := fun _ _ => 0

/-- Two concrete delta maps for the similarity-symmetry scenario. -/
def c6sources : List ParamMap := [[(pkey, [1, 2])], [(pkey, [3, 4])]]

/-- A delta whose flattened vector `[1]` has squared norm `1 ≥ 1e-6`. -/
def c7good : List ParamMap := [[(pkey, [1])]]

/-- A nonzero delta whose flattened vector `[1/10000]` has squared norm
`1e-8`, small enough for the `1e-12` denominator guard to matter. -/
def c7tiny : List ParamMap := [[(pkey, [1/10000])]]

/-- Concrete target map for the `reduce_add_average` scenario. -/
def c5t : ParamMap := [(pkey, [1, 2])]

/-- Single concrete source map for the `reduce_add_average` scenario. -/
def c5m : ParamMap := [(pkey, [10, 20])]

end FLDevices

namespace FLDevices

lemma getD_lt {α : Type _} (l : List α) (d : α) (x : ℕ) (h : x < l.length) :
    l.getD x d = l[x] := by
  simp [List.getD_eq_getElem?_getD, List.getElem?_eq_getElem h]

lemma getD0_rangeMap (g : ℕ → ℚ) (L x : ℕ) (h : x < L) :
    ((List.range L).map g).getD x 0 = g x := by
  rw [getD_lt _ _ _ (by simpa using h)]
  simp

lemma getD0_map (f : ℚ → ℚ) (l : List ℚ) (x : ℕ) (h : x < l.length) :
    (l.map f).getD x 0 = f (l.getD x 0) := by
  rw [getD_lt _ _ _ (by simpa using h), getD_lt _ _ _ h, List.getElem_map]

lemma length_addT (a b : Tensor) : (addT a b).length = min a.length b.length := by
  simp [addT]

lemma getD0_addT (a b : Tensor) (x : ℕ) (ha : x < a.length) (hb : x < b.length) :
    (addT a b).getD x 0 = a.getD x 0 + b.getD x 0 := by
  have hx : x < (addT a b).length := by rw [length_addT]; omega
  rw [getD_lt _ _ _ hx, getD_lt _ _ _ ha, getD_lt _ _ _ hb]
  simp [addT]

lemma length_subT (a b : Tensor) : (subT a b).length = min a.length b.length := by
  simp [subT]

lemma getD0_subT (a b : Tensor) (x : ℕ) (ha : x < a.length) (hb : x < b.length) :
    (subT a b).getD x 0 = a.getD x 0 - b.getD x 0 := by
  have hx : x < (subT a b).length := by rw [length_subT]; omega
  rw [getD_lt _ _ _ hx, getD_lt _ _ _ ha, getD_lt _ _ _ hb]
  simp [subT]

lemma hasKeyLen_iff (s : ParamMap) (name : String) (L : ℕ) :
    hasKeyLen s name L = true ↔ ∃ v, lookupT s name = some v ∧ v.length = L := by
  unfold hasKeyLen
  cases h : lookupT s name <;> simp

lemma entryAt_of_lookup {s : ParamMap} {name : String} {v : Tensor}
    (h : lookupT s name = some v) (x : ℕ) : entryAt s name x = v.getD x 0 := by
  simp [entryAt, h]

/-- If `minuend` and `subtrahend` carry every key of `target` at the right
shape, `get_dW` succeeds and produces exactly the accumulate-difference map. -/
lemma get_dW_eq_spec (target minuend subtrahend : ParamMap)
    (hc : compatB target [minuend, subtrahend] = true) :
    get_dW target minuend subtrahend = some (specAddDiff minuend subtrahend target) := by
  induction target with
  | nil => rfl
  | cons p rest ih =>
    obtain ⟨name, t⟩ := p
    rw [compatB, List.all_cons, Bool.and_eq_true] at hc
    obtain ⟨hhead, htail⟩ := hc
    rw [List.all_cons, List.all_cons, List.all_nil, Bool.and_eq_true, Bool.and_eq_true] at hhead
    obtain ⟨hm, hs, -⟩ := hhead
    replace hm : hasKeyLen minuend name t.length = true := hm
    replace hs : hasKeyLen subtrahend name t.length = true := hs
    obtain ⟨mv, hmv, hmL⟩ := (hasKeyLen_iff _ _ _).mp hm
    obtain ⟨sv, hsv, hsL⟩ := (hasKeyLen_iff _ _ _).mp hs
    have ihr := ih htail
    have htensor : addT t (subT mv sv)
        = (List.range t.length).map (fun x =>
            t.getD x 0 + (entryAt minuend name x - entryAt subtrahend name x)) := by
      apply List.ext_getElem
      · rw [length_addT, length_subT, hmL, hsL]
        simp
      · intro i h1 h2
        have hi : i < t.length := by simpa using h2
        rw [← getD_lt _ 0 i h1, ← getD_lt _ 0 i h2]
        rw [getD0_addT _ _ _ hi (by rw [length_subT, hmL, hsL]; omega)]
        rw [getD0_subT _ _ _ (by omega) (by omega)]
        rw [getD0_rangeMap _ _ _ hi]
        rw [entryAt_of_lookup hmv, entryAt_of_lookup hsv]
    rw [get_dW, hmv, hsv, ihr]
    show some ((name, addT t (subT mv sv)) :: specAddDiff minuend subtrahend rest)
      = some (specAddDiff minuend subtrahend ((name, t) :: rest))
    rw [htensor]
    rfl

lemma compatB_specAddDiff (m s target : ParamMap) (ss : List ParamMap) :
    compatB (specAddDiff m s target) ss = compatB target ss := by
  induction target with
  | nil => rfl
  | cons p rest ih =>
    simp only [specAddDiff, compatB, List.map_cons, List.all_cons] at ih ⊢
    rw [ih]
    simp

lemma compatB_subset (target : ParamMap) (ss1 ss2 : List ParamMap)
    (hsub : ∀ s ∈ ss1, s ∈ ss2) (h : compatB target ss2 = true) :
    compatB target ss1 = true := by
  simp only [compatB, List.all_eq_true] at h ⊢
  exact fun p hp s hs => h p hp s (hsub s hs)

lemma getD_pmD_specAddDiff (m s target : ParamMap) (k : ℕ) (hk : k < target.length) :
    (specAddDiff m s target).getD k pmD
      = ((target.getD k pmD).1,
          (List.range (target.getD k pmD).2.length).map (fun x =>
            (target.getD k pmD).2.getD x 0
              + (entryAt m (target.getD k pmD).1 x - entryAt s (target.getD k pmD).1 x))) := by
  rw [specAddDiff, getD_lt _ _ _ (by simpa using hk), getD_lt _ _ _ hk, List.getElem_map]

lemma sumT_spec (L : ℕ) : ∀ ts : List Tensor, ts ≠ [] → (∀ t ∈ ts, t.length = L) →
    (sumT ts).length = L ∧
      ∀ x, x < L → (sumT ts).getD x 0 = (ts.map (fun t => t.getD x 0)).sum := by
  intro ts
  induction ts with
  | nil => intro h; exact absurd rfl h
  | cons t rest ih =>
    intro _ hlen
    cases rest with
    | nil =>
      refine ⟨hlen t (by simp), ?_⟩
      intro x hx
      simp [sumT]
    | cons t2 rest2 =>
      have hlen2 : ∀ u ∈ t2 :: rest2, u.length = L := fun u hu => hlen u (by simp [hu])
      obtain ⟨ihL, ihx⟩ := ih (by simp) hlen2
      constructor
      · show (addT t (sumT (t2 :: rest2))).length = L
        rw [length_addT, ihL, hlen t (by simp)]
        simp
      · intro x hx
        show (addT t (sumT (t2 :: rest2))).getD x 0 = _
        rw [getD0_addT _ _ _ (by rw [hlen t (by simp)]; exact hx) (by rw [ihL]; exact hx)]
        rw [ihx x hx]
        simp

lemma meanT_spec (L : ℕ) (ts : List Tensor) (hne : ts ≠ []) (hlen : ∀ t ∈ ts, t.length = L) :
    ∃ m, meanT ts = some m ∧ m.length = L ∧ ∀ x, x < L →
      m.getD x 0 = (ts.map (fun t => t.getD x 0)).sum / (ts.length : ℚ) := by
  obtain ⟨hL, hx⟩ := sumT_spec L ts hne hlen
  cases ts with
  | nil => exact absurd rfl hne
  | cons t rest =>
    refine ⟨_, rfl, ?_, ?_⟩
    · rw [List.length_map]
      exact hL
    · intro x hxx
      rw [getD0_map _ _ _ (by rw [hL]; exact hxx), hx x hxx]

lemma mapLookup_spec (name : String) (L : ℕ) : ∀ sources : List ParamMap,
    (∀ s ∈ sources, hasKeyLen s name L = true) →
    ∃ vs, mapLookup name sources = some vs ∧ vs.length = sources.length ∧
      (∀ v ∈ vs, v.length = L) ∧
      ∀ x, vs.map (fun v => v.getD x 0) = sources.map (fun s => entryAt s name x) := by
  intro sources
  induction sources with
  | nil => exact fun _ => ⟨[], rfl, rfl, by simp, by simp⟩
  | cons s rest ih =>
    intro h
    obtain ⟨v, hv, hvL⟩ := (hasKeyLen_iff _ _ _).mp (h s (by simp))
    obtain ⟨vs, hvs, hlen, hall, hmap⟩ := ih (fun u hu => h u (by simp [hu]))
    refine ⟨v :: vs, ?_, by simp [hlen], ?_, ?_⟩
    · rw [mapLookup, hv, hvs]
    · intro u hu
      rcases List.mem_cons.mp hu with h1 | h2
      · rw [h1]; exact hvL
      · exact hall u h2
    · intro x
      rw [List.map_cons, List.map_cons, entryAt_of_lookup hv, hmap x]

/-- If every source carries every key of `target` at the right shape and there
is at least one source, the inner loop of `reduce_add_average` adds exactly
the per-key elementwise mean into `target`. -/
lemma addMeanInto_eq_spec (sources : List ParamMap) (hs : sources ≠ []) :
    ∀ target : ParamMap, compatB target sources = true →
    addMeanInto target sources = some (specAddMean sources target) := by
  intro target
  induction target with
  | nil => intro _; rfl
  | cons p rest ih =>
    obtain ⟨name, t⟩ := p
    intro hc
    rw [compatB, List.all_cons, Bool.and_eq_true] at hc
    obtain ⟨hhead, htail⟩ := hc
    replace hhead : ∀ s ∈ sources, hasKeyLen s name t.length = true := by
      intro s hs2
      exact List.all_eq_true.mp hhead s hs2
    obtain ⟨vs, hvs, hlenvs, hallvs, hmapvs⟩ := mapLookup_spec name t.length sources hhead
    have hvs_ne : vs ≠ [] := by
      intro h0
      rw [h0] at hlenvs
      exact hs (List.length_eq_zero.mp hlenvs.symm)
    obtain ⟨m, hm, hmL, hmx⟩ := meanT_spec t.length vs hvs_ne hallvs
    have htensor : addT t m
        = (List.range t.length).map (fun x => t.getD x 0 + specMeanEntry sources name x) := by
      apply List.ext_getElem
      · rw [length_addT, hmL]
        simp
      · intro i h1 h2
        have hi : i < t.length := by simpa using h2
        rw [← getD_lt _ 0 i h1, ← getD_lt _ 0 i h2]
        rw [getD0_addT _ _ _ hi (by rw [hmL]; exact hi)]
        rw [getD0_rangeMap _ _ _ hi]
        rw [hmx i hi, specMeanEntry, ← hmapvs i, hlenvs]
    rw [addMeanInto, hvs]
    simp only [hm, ih htail, htensor]
    simp [specAddMean]

lemma reduce_add_average_eq_spec (sources : List ParamMap) (hs : sources ≠ []) :
    ∀ targets : List ParamMap, (∀ t ∈ targets, compatB t sources = true) →
    reduce_add_average targets sources = some (targets.map (specAddMean sources)) := by
  intro targets
  induction targets with
  | nil => intro _; rfl
  | cons t ts ih =>
    intro h
    rw [reduce_add_average, addMeanInto_eq_spec sources hs t (h t (by simp)),
      ih (fun u hu => h u (by simp [hu]))]
    rfl

/-- C1: the claim says `reset()` after `compute_weight_update` restores `W`
bit-identical to the snapshot of the server's `W` taken at the last
`synchronize_with_server` (here `[5]`). The code instead leaves `W` at the
trained values `[7]`: `synchronize_with_server` stores `self.W_original =
self.W`, a reference to the live dictionary rather than a clone, so training
overwrites the "snapshot" and `reset` copies `W` onto itself. -/
theorem c1_reset_keeps_trained_values :
    ((((c1Client.synchronize_with_server c1ServerW).bind
          (fun c => c.compute_weight_update c1Trained)).bind
        PyClient.reset).map (fun c => c.attr c.W_ref))
        = some [(pkey, [7])]
      ∧ ([(pkey, [7])] : ParamMap) ≠ c1ServerW := by
  constructor
  · decide
  · decide

/-- C2: `Server.aggregate_weight_updates` invokes `reduce_add_average` with the
keyword argument `target=`, but the function declares the parameter `targets`;
Python rejects the call with a TypeError before any averaging happens, so the
claimed federated-averaging update of the server's `W` never executes. -/
theorem c2_aggregate_weight_updates_kwarg_mismatch :
    pyCallBindsKwargs reduce_add_average_param_names
      aggregate_weight_updates_call_kwargs = false := by
  decide

/-- C4: `get_dW` adds `minuend[key] - subtrahend[key]` into the target's
existing value without zeroing it first, so two successive calls leave the
target at its initial value plus the sum of both differences. -/
theorem c4_get_dW_accumulates (target m1 s1 m2 s2 : ParamMap)
    (hc : compatB target [m1, s1, m2, s2] = true) :
    get_dW target m1 s1 = some (specAddDiff m1 s1 target) ∧
    get_dW (specAddDiff m1 s1 target) m2 s2
      = some (specAddDiff m2 s2 (specAddDiff m1 s1 target)) ∧
    ∀ k, k < target.length → ∀ x, x < (target.getD k pmD).2.length →
      ((specAddDiff m2 s2 (specAddDiff m1 s1 target)).getD k pmD).2.getD x 0
        = (target.getD k pmD).2.getD x 0
          + (entryAt m1 (target.getD k pmD).1 x - entryAt s1 (target.getD k pmD).1 x)
          + (entryAt m2 (target.getD k pmD).1 x - entryAt s2 (target.getD k pmD).1 x) := by
  have h12 : compatB target [m1, s1] = true := by
    refine compatB_subset _ _ _ ?_ hc
    intro s hs
    simp only [List.mem_cons, List.not_mem_nil, or_false] at hs ⊢
    tauto
  have h34 : compatB target [m2, s2] = true := by
    refine compatB_subset _ _ _ ?_ hc
    intro s hs
    simp only [List.mem_cons, List.not_mem_nil, or_false] at hs ⊢
    tauto
  refine ⟨get_dW_eq_spec _ _ _ h12,
    get_dW_eq_spec _ _ _ (by rw [compatB_specAddDiff]; exact h34), ?_⟩
  intro k hk x hx
  have hk1 : k < (specAddDiff m1 s1 target).length := by
    simpa [specAddDiff] using hk
  rw [getD_pmD_specAddDiff m2 s2 _ k hk1, getD_pmD_specAddDiff m1 s1 target k hk]
  simp only [List.length_map, List.length_range]
  rw [getD0_rangeMap _ _ _ hx, getD0_rangeMap _ _ _ hx]

/-- C4 witness: a concrete target `{w: [100]}` accumulated twice, with
differences `3 - 1 = 2` and `10 - 4 = 6`, ends at `100 + 2 + 6 = 108`. -/
theorem c4_witness :
    compatB c4t [c4m1, c4s1, c4m2, c4s2] = true
    ∧ (get_dW c4t c4m1 c4s1 = some (specAddDiff c4m1 c4s1 c4t) ∧
       get_dW (specAddDiff c4m1 c4s1 c4t) c4m2 c4s2
         = some (specAddDiff c4m2 c4s2 (specAddDiff c4m1 c4s1 c4t)) ∧
       ∀ k, k < c4t.length → ∀ x, x < (c4t.getD k pmD).2.length →
         ((specAddDiff c4m2 c4s2 (specAddDiff c4m1 c4s1 c4t)).getD k pmD).2.getD x 0
           = (c4t.getD k pmD).2.getD x 0
             + (entryAt c4m1 (c4t.getD k pmD).1 x - entryAt c4s1 (c4t.getD k pmD).1 x)
             + (entryAt c4m2 (c4t.getD k pmD).1 x - entryAt c4s2 (c4t.getD k pmD).1 x))
    ∧ specAddDiff c4m2 c4s2 (specAddDiff c4m1 c4s1 c4t) = [(pkey, [108])] :=
  ⟨by decide, c4_get_dW_accumulates c4t c4m1 c4s1 c4m2 c4s2 (by decide), by
    norm_num [specAddDiff, c4t, c4m1, c4s1, c4m2, c4s2, entryAt, lookupT,
      List.range_succ]⟩

/-- C5: for a non-empty list of compatible source maps, `reduce_add_average`
adds the per-key elementwise mean of the sources into every target map —
the same contribution, `specAddMean sources`, applied to each target. The
single-source instance (mean of one map is that map) is exercised by the
witness below. -/
theorem c5_reduce_add_average_adds_mean (targets sources : List ParamMap)
    (hs : sources ≠ []) (hc : ∀ t ∈ targets, compatB t sources = true) :
    reduce_add_average targets sources = some (targets.map (specAddMean sources)) :=
  reduce_add_average_eq_spec sources hs targets hc

/-- C5 witness: with the single source `{w: [10, 20]}`, the target
`{w: [1, 2]}` receives exactly the source (the mean of one map), ending at
`{w: [11, 22]}`. -/
theorem c5_witness :
    ([c5m] ≠ ([] : List ParamMap))
    ∧ (∀ t ∈ [c5t], compatB t [c5m] = true)
    ∧ reduce_add_average [c5t] [c5m] = some ([c5t].map (specAddMean [c5m]))
    ∧ [c5t].map (specAddMean [c5m]) = [[(pkey, [11, 22])]] :=
  ⟨by decide, by decide,
   c5_reduce_add_average_adds_mean [c5t] [c5m] (by decide) (by decide),
   by norm_num [specAddMean, specMeanEntry, entryAt, c5t, c5m, lookupT,
     List.range_succ]⟩

/-- C3: `aggregate_clusterwise` adds, for each cohort, the per-key elementwise
mean of that cohort's members' `dW` into each member's own `W`: every member
of a cohort receives the identical contribution `specAddMean` of exactly that
cohort's deltas, and `dW` is untouched. -/
theorem c3_aggregate_clusterwise_cohort_mean (clusters : List (List FClient))
    (h : ∀ cluster ∈ clusters, ∀ c ∈ cluster,
      compatB c.W (cluster.map (fun d => d.dW)) = true) :
    aggregate_clusterwise clusters
      = some (clusters.map (fun cluster => cluster.map (fun c =>
          { W := specAddMean (cluster.map (fun d => d.dW)) c.W, dW := c.dW }))) := by
  induction clusters with
  | nil => rfl
  | cons cluster rest ih =>
    have hred : reduce_add_average (cluster.map (fun c => c.W)) (cluster.map (fun c => c.dW))
        = some ((cluster.map (fun c => c.W)).map
            (specAddMean (cluster.map (fun c => c.dW)))) := by
      cases cluster with
      | nil => rfl
      | cons c0 cl =>
        apply reduce_add_average_eq_spec _ (by simp)
        intro t ht
        obtain ⟨c, hc, hct⟩ := List.mem_map.mp ht
        rw [← hct]
        exact h (c0 :: cl) (by simp) c hc
    have hzip : List.zipWith (fun c w => { W := w, dW := c.dW : FClient }) cluster
        ((cluster.map (fun c => c.W)).map (specAddMean (cluster.map (fun c => c.dW))))
        = cluster.map (fun c =>
            { W := specAddMean (cluster.map (fun d => d.dW)) c.W, dW := c.dW : FClient }) := by
      rw [List.map_map, List.zipWith_map_right, List.zipWith_same]
      rfl
    rw [aggregate_clusterwise, hred, ih (fun cl hcl => h cl (by simp [hcl]))]
    simp only [hzip]
    rfl

/-- C3 witness: a single cohort of two clients with deltas `[2]` and `[4]`
(mean `[3]`): both members receive the same added `[3]`, moving their `W`
from `[0]` and `[10]` to `[3]` and `[13]`; their `dW` are unchanged. -/
theorem c3_witness :
    (∀ cluster ∈ c3cohorts, ∀ c ∈ cluster,
      compatB c.W (cluster.map (fun d => d.dW)) = true)
    ∧ aggregate_clusterwise c3cohorts
        = some (c3cohorts.map (fun cluster => cluster.map (fun c =>
            { W := specAddMean (cluster.map (fun d => d.dW)) c.W, dW := c.dW })))
    ∧ c3cohorts.map (fun cluster => cluster.map (fun c =>
        { W := specAddMean (cluster.map (fun d => d.dW)) c.W, dW := c.dW : FClient }))
        = [[{ W := [(pkey, [3])], dW := [(pkey, [2])] },
            { W := [(pkey, [13])], dW := [(pkey, [4])] }]] :=
  ⟨by decide, c3_aggregate_clusterwise_cohort_mean c3cohorts (by decide),
   by norm_num [c3cohorts, c3a, c3b, specAddMean, specMeanEntry, entryAt, lookupT,
     List.range_succ]⟩

lemma sumLoop_spec (clients : List FClient) (hne : clients ≠ []) :
    ∀ keys : ParamMap, compatB keys (clients.map (fun c => c.dW)) = true →
    sumLoop keys clients = some (keys.map (fun p =>
      (p.1, (List.range p.2.length).map (fun x =>
        ((clients.map (fun c => c.dW)).map (fun s => entryAt s p.1 x)).sum)))) := by
  intro keys
  induction keys with
  | nil => intro _; rfl
  | cons p rest ih =>
    obtain ⟨name, t⟩ := p
    intro hc
    rw [compatB, List.all_cons, Bool.and_eq_true] at hc
    obtain ⟨hhead, htail⟩ := hc
    replace hhead : ∀ s ∈ clients.map (fun c => c.dW), hasKeyLen s name t.length = true :=
      fun s hs => List.all_eq_true.mp hhead s hs
    obtain ⟨vs, hvs, hlenvs, hallvs, hmapvs⟩ := mapLookup_spec name t.length _ hhead
    have hvs_ne : vs ≠ [] := by
      intro h0
      apply hne
      rw [h0] at hlenvs
      have h1 : clients.length = 0 := by simpa using hlenvs.symm
      exact List.length_eq_zero.mp h1
    obtain ⟨hsumL, hsumx⟩ := sumT_spec t.length vs hvs_ne hallvs
    have htensor : sumT vs = (List.range t.length).map (fun x =>
        ((clients.map (fun c => c.dW)).map (fun s => entryAt s name x)).sum) := by
      apply List.ext_getElem
      · rw [hsumL]
        simp
      · intro i h1 h2
        have hi : i < t.length := by simpa using h2
        rw [← getD_lt _ 0 i h1, ← getD_lt _ 0 i h2]
        rw [hsumx i hi, getD0_rangeMap _ _ _ hi, hmapvs i]
    rw [sumLoop, hvs, ih htail]
    simp only [htensor]
    rfl

/-- C9: `get_average_dw` returns the standalone per-key arithmetic mean of the
clients' `dW`; it reads but never writes client or server state (it is a pure
function of the clients' deltas — the sums are built into fresh tensors). -/
theorem c9_get_average_dw_is_mean (clients : List FClient)
    (hne : clients ≠ [])
    (hc : compatB (clients.headD { W := [], dW := [] }).dW
      (clients.map (fun c => c.dW)) = true) :
    get_average_dw clients = some (specAvgDw clients) := by
  cases clients with
  | nil => exact absurd rfl hne
  | cons c0 rest =>
    have hsum := sumLoop_spec (c0 :: rest) (by simp) c0.dW (by simpa using hc)
    rw [get_average_dw, hsum]
    simp [specAvgDw, specMeanEntry, List.map_map, Function.comp]

/-- C9 witness: two clients with opposite deltas `[1]` and `[-1]`; the average
delta is the all-zero map, and no client state appears in the output. -/
theorem c9_witness :
    (c9clients ≠ [])
    ∧ compatB (c9clients.headD { W := [], dW := [] }).dW
        (c9clients.map (fun c => c.dW)) = true
    ∧ get_average_dw c9clients = some (specAvgDw c9clients)
    ∧ specAvgDw c9clients = [(pkey, [0])] :=
  ⟨by decide, by decide,
   c9_get_average_dw_is_mean c9clients (by decide) (by decide),
   by norm_num [specAvgDw, c9clients, c9a, c9b, specMeanEntry, entryAt, lookupT,
     List.range_succ]⟩

lemma dotQ_cons (x y : ℚ) (xs ys : Tensor) :
    dotQ (x :: xs) (y :: ys) = x * y + dotQ xs ys := by
  unfold dotQ
  rw [List.zipWith_cons_cons, List.sum_cons]

lemma dotQ_comm : ∀ a b : Tensor, dotQ a b = dotQ b a := by
  intro a
  induction a with
  | nil => intro b; cases b <;> rfl
  | cons x xs ih =>
    intro b
    cases b with
    | nil => rfl
    | cons y ys => rw [dotQ_cons, dotQ_cons, mul_comm x y, ih ys]

lemma dotQ_self_nonneg : ∀ a : Tensor, 0 ≤ dotQ a a := by
  intro a
  induction a with
  | nil => exact le_of_eq rfl
  | cons x xs ih =>
    rw [dotQ_cons]
    have hx := mul_self_nonneg x
    linarith

/-- The diagonal entry of `pairwise_angles`, with the two equal square roots
multiplied out: `s / (s + 1e-12)` where `s` is the squared norm. -/
lemma pairwise_angles_diag (sources : List ParamMap) (i : ℕ) :
    pairwise_angles sources i i
      = ((dotQ (flattenP (sources.getD i [])) (flattenP (sources.getD i [])) : ℚ) : ℝ)
        / (((dotQ (flattenP (sources.getD i [])) (flattenP (sources.getD i [])) : ℚ) : ℝ)
          + 1 / 1000000000000) := by
  have hnn : (0 : ℝ)
      ≤ ((dotQ (flattenP (sources.getD i [])) (flattenP (sources.getD i [])) : ℚ) : ℝ) := by
    exact_mod_cast dotQ_self_nonneg (flattenP (sources.getD i []))
  simp only [pairwise_angles]
  rw [Real.mul_self_sqrt hnn]

/-- C6: the similarity matrix of `pairwise_angles` is symmetric: entry `(i, j)`
equals entry `(j, i)` for all indices, because the dot product and the product
of the two norms are both symmetric in their arguments. -/
theorem c6_pairwise_angles_symm (sources : List ParamMap) (i j : ℕ)
    (_hi : i < sources.length) (_hj : j < sources.length) :
    pairwise_angles sources i j = pairwise_angles sources j i := by
  simp only [pairwise_angles]
  rw [dotQ_comm (flattenP (sources.getD j [])) (flattenP (sources.getD i []))]
  ring_nf

/-- C6 witness: the symmetry instance for the two concrete deltas
`{w: [1, 2]}` and `{w: [3, 4]}`. -/
theorem c6_witness :
    0 < c6sources.length ∧ 1 < c6sources.length ∧
    pairwise_angles c6sources 0 1 = pairwise_angles c6sources 1 0 :=
  ⟨by decide, by decide, c6_pairwise_angles_symm c6sources 0 1 (by decide) (by decide)⟩

/-- C7 counterexample: the nonzero vector `[1/10000]` has squared norm `1e-8`,
and its diagonal entry is `1e-8 / (1e-8 + 1e-12) = 10000/10001`, which is off
from 1 by `1/10001 > 1e-6` — refuting the claim for arbitrary nonzero
vectors. -/
theorem c7_tiny_nonzero_counterexample :
    flattenP (c7tiny.getD 0 []) = [1/10000] ∧ (1/10000 : ℚ) ≠ 0
      ∧ 1/1000000 < |pairwise_angles c7tiny 0 0 - 1| := by
  refine ⟨by norm_num [c7tiny, flattenP], by norm_num, ?_⟩
  rw [pairwise_angles_diag]
  have hdot : dotQ (flattenP (c7tiny.getD 0 [])) (flattenP (c7tiny.getD 0 []))
      = 1/100000000 := by
    norm_num [c7tiny, flattenP, dotQ]
  rw [hdot]
  have hval : ((1/100000000 : ℚ) : ℝ) / (((1/100000000 : ℚ) : ℝ) + 1 / 1000000000000) - 1
      = -(1/10001) := by
    push_cast
    norm_num
  rw [hval, abs_neg, abs_of_pos (by norm_num : (0:ℝ) < 1/10001)]
  norm_num

/-- C7 (amended): the diagonal entry equals 1 within `1e-6` for every input
whose flattened vector has squared norm at least `1e-6`; for smaller nonzero
vectors the `1e-12` guard in the denominator can pull the entry more than
`1e-6` below 1. -/
theorem c7_diagonal_within_tolerance (sources : List ParamMap) (i : ℕ)
    (h : (1 : ℚ)/1000000
      ≤ dotQ (flattenP (sources.getD i [])) (flattenP (sources.getD i []))) :
    |pairwise_angles sources i i - 1| ≤ 1/1000000 := by
  rw [pairwise_angles_diag]
  set S : ℝ :=
    ((dotQ (flattenP (sources.getD i [])) (flattenP (sources.getD i [])) : ℚ) : ℝ) with hS
  have hs : (1/1000000 : ℝ) ≤ S := by
    rw [hS]
    have h2 : ((1/1000000 : ℚ) : ℝ)
        ≤ ((dotQ (flattenP (sources.getD i [])) (flattenP (sources.getD i [])) : ℚ) : ℝ) :=
      Rat.cast_le.mpr h
    simpa using h2
  have hSpos : (0 : ℝ) < S := lt_of_lt_of_le (by norm_num) hs
  have hden : (0 : ℝ) < S + 1 / 1000000000000 := by linarith
  have key : S / (S + 1 / 1000000000000) - 1
      = -((1 / 1000000000000) / (S + 1 / 1000000000000)) := by
    field_simp
  rw [key, abs_neg,
    abs_of_pos (div_pos (by norm_num) hden)]
  rw [div_le_iff₀ hden]
  linarith

/-- C7 witness: the vector `[1]` has squared norm `1 ≥ 1e-6`, so its diagonal
entry is within `1e-6` of 1. -/
theorem c7_witness :
    ((1 : ℚ)/1000000
      ≤ dotQ (flattenP (c7good.getD 0 [])) (flattenP (c7good.getD 0 [])))
    ∧ |pairwise_angles c7good 0 0 - 1| ≤ 1/1000000 :=
  ⟨by norm_num [c7good, flattenP, dotQ],
   c7_diagonal_within_tolerance c7good 0 (by norm_num [c7good, flattenP, dotQ])⟩

lemma mem_allPairs (n a b : ℕ) : (a, b) ∈ allPairs n ↔ a < b ∧ b < n := by
  simp only [allPairs, List.mem_flatten, List.mem_map, List.mem_range]
  constructor
  · rintro ⟨L, ⟨j, hj, rfl⟩, hm⟩
    simp only [List.mem_map, List.mem_range, Prod.mk.injEq] at hm
    obtain ⟨i, hi, hia, hjb⟩ := hm
    subst hia
    subst hjb
    exact ⟨hi, hj⟩
  · rintro ⟨hab, hbn⟩
    refine ⟨(List.range b).map (fun i => (i, b)), ⟨b, hbn, rfl⟩, ?_⟩
    simp [hab]

lemma allPairs_ne_nil (n : ℕ) (hn : 2 ≤ n) : allPairs n ≠ [] :=
  List.ne_nil_of_mem ((mem_allPairs n 0 1).mpr ⟨by omega, by omega⟩)

lemma pickMin_foldl_mem (f : ℕ × ℕ → ℚ) :
    ∀ (ps : List (ℕ × ℕ)) (acc : ℕ × ℕ),
      ps.foldl (fun best q => if f q < f best then q else best) acc ∈ acc :: ps := by
  intro ps
  induction ps with
  | nil => intro acc; simp
  | cons q qs ih =>
    intro acc
    rw [List.foldl_cons]
    rcases List.mem_cons.mp (ih (if f q < f acc then q else acc)) with h1 | h2
    · rw [h1]
      by_cases hc : f q < f acc <;> simp [hc]
    · simp [h2]

lemma pickMin_mem (f : ℕ × ℕ → ℚ) (l : List (ℕ × ℕ)) (p : ℕ × ℕ)
    (h : pickMin f l = some p) : p ∈ l := by
  cases l with
  | nil => cases h
  | cons q qs =>
    rw [pickMin, Option.some.injEq] at h
    rw [← h]
    exact pickMin_foldl_mem f qs q

lemma eraseIdx_getD_lt : ∀ (cs : List (List ℕ)) (a b : ℕ), a < b →
    (cs.eraseIdx b).getD a [] = cs.getD a [] := by
  intro cs
  induction cs with
  | nil => intro a b _; rfl
  | cons c rest ih =>
    intro a b hab
    cases b with
    | zero => omega
    | succ k =>
      cases a with
      | zero => rfl
      | succ m =>
        have := ih m k (by omega)
        simpa using this

lemma flatten_eraseIdx_perm : ∀ (cs : List (List ℕ)) (i : ℕ), i < cs.length →
    cs.flatten.Perm (cs.getD i [] ++ (cs.eraseIdx i).flatten) := by
  intro cs
  induction cs with
  | nil => intro i hi; exact absurd hi (Nat.not_lt_zero i)
  | cons c rest ih =>
    intro i hi
    cases i with
    | zero => simp
    | succ k =>
      have hk : k < rest.length := by simpa using hi
      have step1 : (c :: rest).flatten = c ++ rest.flatten := by simp
      have goalEq : (c :: rest).getD (k+1) [] ++ ((c :: rest).eraseIdx (k+1)).flatten
          = rest.getD k [] ++ (c ++ (rest.eraseIdx k).flatten) := by simp
      rw [step1, goalEq]
      exact ((ih k hk).append_left c).trans
        (List.perm_append_comm_assoc c (rest.getD k []) ((rest.eraseIdx k).flatten))

lemma stepMerge_invariant (D : ℕ → ℕ → ℚ) (cs : List (List ℕ)) (hgt : 2 < cs.length) :
    (stepMerge D cs).length = cs.length - 1 ∧
    (stepMerge D cs).flatten.Perm cs.flatten ∧
    ((∀ c ∈ cs, c ≠ []) → ∀ c ∈ stepMerge D cs, c ≠ []) := by
  have hne : allPairs cs.length ≠ [] := allPairs_ne_nil _ (by omega)
  have hp : ∃ p, pickMin (fun p => linkDist D (cs.getD p.1 []) (cs.getD p.2 []))
      (allPairs cs.length) = some p := by
    cases hap : allPairs cs.length with
    | nil => exact absurd hap hne
    | cons q qs => exact ⟨_, rfl⟩
  obtain ⟨p, hp⟩ := hp
  obtain ⟨a, b⟩ := p
  have hab := pickMin_mem _ _ _ hp
  rw [mem_allPairs] at hab
  obtain ⟨hab1, hab2⟩ := hab
  have hstep : stepMerge D cs
      = (cs.getD a [] ++ cs.getD b []) :: (cs.eraseIdx b).eraseIdx a := by
    rw [stepMerge, hp]
  have hb' : a < (cs.eraseIdx b).length := by
    rw [List.length_eraseIdx_of_lt hab2]
    omega
  refine ⟨?_, ?_, ?_⟩
  · rw [hstep]
    show ((cs.eraseIdx b).eraseIdx a).length + 1 = cs.length - 1
    rw [List.length_eraseIdx_of_lt hb', List.length_eraseIdx_of_lt hab2]
    omega
  · have h1 := flatten_eraseIdx_perm cs b hab2
    have h2 := flatten_eraseIdx_perm (cs.eraseIdx b) a hb'
    rw [eraseIdx_getD_lt cs a b hab1] at h2
    have e1 : ((cs.getD a [] ++ cs.getD b []) :: ((cs.eraseIdx b).eraseIdx a)).flatten
        = cs.getD a [] ++ (cs.getD b [] ++ ((cs.eraseIdx b).eraseIdx a).flatten) := by
      simp
    rw [hstep, e1]
    refine (List.perm_append_comm_assoc _ _ _).trans ?_
    exact ((h2.symm).append_left _).trans h1.symm
  · intro hall c hc
    rw [hstep] at hc
    rcases List.mem_cons.mp hc with h1 | h2
    · rw [h1]
      have hmem : cs.getD a [] ∈ cs := by
        rw [getD_lt cs [] a (by omega)]
        exact List.getElem_mem _
      intro hemp
      exact hall _ hmem (List.append_eq_nil.mp hemp).1
    · exact hall c (List.mem_of_mem_eraseIdx (List.mem_of_mem_eraseIdx h2))

lemma agglomerate_spec (D : ℕ → ℕ → ℚ) : ∀ (fuel : ℕ) (cs : List (List ℕ)),
    2 ≤ cs.length → cs.length ≤ fuel + 2 → (∀ c ∈ cs, c ≠ []) →
    (agglomerate D fuel cs).length = 2 ∧
    (agglomerate D fuel cs).flatten.Perm cs.flatten ∧
    (∀ c ∈ agglomerate D fuel cs, c ≠ []) := by
  intro fuel
  induction fuel with
  | zero =>
    intro cs h2 hle hall
    rw [agglomerate]
    exact ⟨by omega, List.Perm.refl _, hall⟩
  | succ k ih =>
    intro cs h2 hle hall
    rw [agglomerate]
    by_cases hc : cs.length ≤ 2
    · rw [if_pos hc]
      exact ⟨by omega, List.Perm.refl _, hall⟩
    · rw [if_neg hc]
      push_neg at hc
      obtain ⟨hlen, hperm, hne⟩ := stepMerge_invariant D cs hc
      obtain ⟨r1, r2, r3⟩ := ih (stepMerge D cs) (by omega) (by omega) (hne hall)
      exact ⟨r1, r2.trans hperm, r3⟩

lemma flatten_map_singleton : ∀ l : List ℕ, (l.map (fun i => [i])).flatten = l := by
  intro l
  induction l with
  | nil => rfl
  | cons x xs ih => simp [ih]

/-- C8: for any similarity matrix over `n ≥ 2` clients, `cluster_clients`
returns two disjoint, non-empty index lists whose members together are exactly
`{0, ..., n-1}` — a binary partition of the client set. -/
theorem c8_cluster_clients_partition (S : ℕ → ℕ → ℚ) (n : ℕ) (hn : 2 ≤ n) :
    (cluster_clients S n).1 ≠ [] ∧ (cluster_clients S n).2 ≠ [] ∧
    (∀ x ∈ (cluster_clients S n).1, x ∉ (cluster_clients S n).2) ∧
    (∀ x, (x ∈ (cluster_clients S n).1 ∨ x ∈ (cluster_clients S n).2) ↔ x < n) := by
  have hinit_len : ((List.range n).map (fun i => [i])).length = n := by simp
  have hinit_ne : ∀ c ∈ (List.range n).map (fun i => [i]), c ≠ [] := by
    intro c hc
    obtain ⟨i, _, rfl⟩ := List.mem_map.mp hc
    simp
  obtain ⟨hlen, hperm, hne⟩ := agglomerate_spec (fun i j => -(S i j)) n
    ((List.range n).map (fun i => [i]))
    (by rw [hinit_len]; exact hn) (by rw [hinit_len]; omega) hinit_ne
  rw [flatten_map_singleton] at hperm
  obtain ⟨c1, c2, hcs2⟩ := List.length_eq_two.mp hlen
  have hpair : cluster_clients S n
      = ((agglomerate (fun i j => -(S i j)) n ((List.range n).map (fun i => [i]))).getD 0 [],
         (agglomerate (fun i j => -(S i j)) n ((List.range n).map (fun i => [i]))).getD 1 []) :=
    rfl
  rw [hpair, hcs2]
  rw [hcs2] at hperm hne
  simp only [List.getD_cons_zero, List.getD_cons_succ]
  have hperm12 : (c1 ++ c2).Perm (List.range n) := by
    simpa using hperm
  have hnd : (c1 ++ c2).Nodup := hperm12.symm.nodup (List.nodup_range n)
  obtain ⟨-, -, hdisj⟩ := List.nodup_append.mp hnd
  refine ⟨hne c1 (by simp), hne c2 (by simp), ?_, ?_⟩
  · intro x hx1 hx2
    exact hdisj hx1 hx2
  · intro x
    rw [← List.mem_append, hperm12.mem_iff, List.mem_range]

/-- C8 witness: the partition property instantiated on the all-zero 2-by-2
similarity matrix over two clients. -/
theorem c8_witness :
    2 ≤ 2 ∧
    ((cluster_clients c8S 2).1 ≠ [] ∧ (cluster_clients c8S 2).2 ≠ [] ∧
     (∀ x ∈ (cluster_clients c8S 2).1, x ∉ (cluster_clients c8S 2).2) ∧
     (∀ x, (x ∈ (cluster_clients c8S 2).1 ∨ x ∈ (cluster_clients c8S 2).2) ↔ x < 2)) :=
  ⟨by decide, c8_cluster_clients_partition c8S 2 (by decide)⟩

/-- C10: on a freshly constructed client, `reset()` raises AttributeError:
the `W_original` attribute is created only inside `synchronize_with_server`,
not by `Client.__init__`. -/
theorem c10_reset_before_sync_fails (W0 : ParamMap) (lr0 : ℚ) :
    PyClient.reset (PyClient.init W0 lr0) = none := by
  rfl

end FLDevices
